import Mathlib

/-
Verification of the fuse-table generator (build/fuses/build.py).

The script reads a JSON configuration (a dict mapping "_version" to an
integer, "_comment" to free text, and fuse identifiers to boolean
defaults), validates that the version fits in one byte, and renders a
C++ header and implementation file by textual substitution into fixed
templates.  We embed the script shallowly: Python strings become
`List Char`, `str.replace` becomes `pyReplace`, the JSON dict becomes an
association list in insertion order, and the process-level behaviour
(uncaught exceptions, file writes) becomes an explicit result value.
-/

set_option maxRecDepth 100000

namespace FusesBuild

-- ### Python string primitives

/-- Predicate test: `startsWith pat s` is true when `pat` is an initial segment of `s`
(the Python `str.startswith`, the matching test used by `str.replace`). -/
def startsWith : List Char → List Char → Bool
  | [], _ => true
  | _ :: _, [] => false
  | a :: as, b :: bs => a == b && startsWith as bs

/-- Fueled worker for `pyReplace`.  Scans left to right; at each position a
(nonempty) occurrence of `pat` is replaced by `rep` and the scan resumes
after the occurrence, so replacement text is never rescanned, exactly as
the Python `str.replace` with the default count. -/
def pyReplaceAux (pat rep : List Char) : Nat → List Char → List Char
  | _, [] => []
  | 0, s => s
  | fuel+1, c :: rest =>
    if !pat.isEmpty && startsWith pat (c :: rest) then
      rep ++ pyReplaceAux pat rep fuel (List.drop pat.length (c :: rest))
    else
      c :: pyReplaceAux pat rep fuel rest

/-- the Python `s.replace(pat, rep)` (all patterns used by the script are
nonempty, so the empty-pattern corner of the Python `replace` is irrelevant). -/
def pyReplace (pat rep s : List Char) : List Char :=
  pyReplaceAux pat rep s.length s

/-- ASCII whitespace stripped by the Python `str.strip()`. -/
def isPySpace (c : Char) : Bool :=
  c == ' ' || c == '\t' || c == '\n' || c == '\r' || c == '\x0b' || c == '\x0c'

/-- the Python `str.strip()`: drop whitespace from both ends. -/
def pyStrip (s : List Char) : List Char :=
  ((s.dropWhile isPySpace).reverse.dropWhile isPySpace).reverse

/-- ASCII cased characters, the word characters of the Python `str.title`.
`c.toNat` bounds 65-90 and 97-122 are the basic latin letters. -/
def casedChar (c : Char) : Bool :=
  (65 ≤ c.toNat && c.toNat ≤ 90) || (97 ≤ c.toNat && c.toNat ≤ 122)

/-- Worker for `pyTitle`: the boolean records whether the previous
character was cased. -/
def pyTitleGo : List Char → Bool → List Char
  | [], _ => []
  | c :: rest, prev =>
    (if casedChar c then (if prev then Char.toLower c else Char.toUpper c) else c)
      :: pyTitleGo rest (casedChar c)

/-- the Python `str.title()` restricted to ASCII: a letter not preceded by a
letter is upper-cased, a letter preceded by a letter is lower-cased, and
every other character is kept. -/
def pyTitle (w : List Char) : List Char := pyTitleGo w false

/-- the Python `s.split('_')` (empty parts are kept, and the empty string
splits to `[""]`). -/
def splitU : List Char → List (List Char)
  | [] => [[]]
  | c :: rest =>
    if c == '_' then [] :: splitU rest
    else
      match splitU rest with
      | [] => [[c]]
      | w :: ws => (c :: w) :: ws

/-- Line 67 of the script:
`name = ''.join(word.title() for word in fuse.split('_'))`. -/
def pyTitleName (fuse : String) : List Char :=
  ((splitU fuse.data).map pyTitle).flatten

/-- The decimal digit character for `n < 10`. -/
def digitCh (n : Nat) : Char := Char.ofNat (48 + n)

/-- Fueled worker for `pyStr`. -/
def pyStrAux : Nat → Nat → List Char
  | 0, _ => []
  | fuel+1, n => if n < 10 then [digitCh n] else pyStrAux fuel (n / 10) ++ [digitCh (n % 10)]

/-- the Python `str(n)` for a natural number: decimal notation. -/
def pyStr (n : Nat) : List Char := pyStrAux (n + 1) n

-- ### The configuration (the parsed fuses.json dict)

/-- JSON values as far as the script distinguishes them. -/
inductive JVal where
  | num (n : Int)
  | bool (b : Bool)
  | str (s : String)
  | null
deriving DecidableEq

/-- Python truthiness, used at `"1" if fuse_defaults[fuse] else "0"`. -/
def pyTruthy : JVal → Bool
  | .num n => n != 0
  | .bool b => b
  | .str s => !s.data.isEmpty
  | .null => false

/-- Reads a JSON value as a Python int where the script requires one
(`bool` is an `int` subclass in Python); anything else raises TypeError
at the `fuse_version >= pow(2, 8)` comparison. -/
def jToInt : JVal → Option Int
  | .num n => some n
  | .bool b => some (if b then 1 else 0)
  | .str _ => none
  | .null => none

/-- The parsed configuration: keys with their values, in insertion order
(a Python dict, so the keys of a well-formed configuration are distinct). -/
abbrev Config := List (String × JVal)

/-- Dict indexing `cfg[k]`, `none` when the key is absent (KeyError). -/
def dictGet (cfg : Config) (k : String) : Option JVal :=
  (cfg.find? (fun p => p.1 == k)).map Prod.snd

/-- Dict deletion `del cfg[k]`, preserving the order of the other keys. -/
def dictDel (cfg : Config) (k : String) : Config :=
  cfg.filter (fun p => p.1 != k)

-- ### Constants of the script

/-- Line 9 of the script. -/
def SENTINEL : List Char := "dL7pKGdnNz796PbbjQWNKmHXBZaB9tsX".data

/-- Lines 11-28 of the script (TEMPLATE_H, a triple-quoted literal that
begins and ends with a newline). -/
def TEMPLATE_H : List Char :=
  "\n#ifndef ELECTRON_FUSES_H_\n#define ELECTRON_FUSES_H_\n\nnamespace electron \x7b\n\nnamespace fuses \x7b\n\nextern const volatile char kFuseWire[];\n\n\x7bgetters\x7d\n\n\x7d  // namespace fuses\n\n\x7d  // namespace electron\n\n#endif  // ELECTRON_FUSES_H_\n".data

/-- Lines 30-46 of the script (TEMPLATE_CC). -/
def TEMPLATE_CC : List Char :=
  "\n#include \"electron/fuses.h\"\n\n#include <iostream>\n\nnamespace electron \x7b\n\nnamespace fuses \x7b\n\nconst volatile char kFuseWire[] = \"\x7bsentinel\x7d\x7bfuse_version\x7d\x7binitial_config\x7d\";\n\n\x7bgetters\x7d\n\n\x7d\n\n\x7d\n".data

/-- Line 68 of the script: the per-fuse declaration template. -/
def GETTER_H_T : List Char := "bool Is\x7bname\x7dEnabled();\n".data

/-- Lines 69-73 of the script: the per-fuse definition template. -/
def GETTER_CC_T : List Char :=
  "\n__attribute__((__visibility__(\"default\"))) bool Is\x7bname\x7dEnabled() \x7b\n  return kFuseWire[\x7bindex\x7d] == \x271\x27;\n\x7d\n".data

/-- The placeholder `"{sentinel}"`. -/
def PAT_SENT : List Char := "\x7bsentinel\x7d".data

/-- The placeholder `"{fuse_version}"`. -/
def PAT_VER : List Char := "\x7bfuse_version\x7d".data

/-- The placeholder `"{initial_config}"`. -/
def PAT_CONF : List Char := "\x7binitial_config\x7d".data

/-- The placeholder `"{getters}"`. -/
def PAT_GET : List Char := "\x7bgetters\x7d".data

/-- The placeholder `"{name}"`. -/
def PAT_NAME : List Char := "\x7bname\x7d".data

/-- The placeholder `"{index}"`. -/
def PAT_INDEX : List Char := "\x7bindex\x7d".data

-- ### The script body

/-- One iteration of the loop at lines 64-73: bump the index, append the
bit character, and append the rendered declaration and definition. -/
def loopStep (st : List Char × List Char × List Char × Nat) (e : String × JVal) :
    List Char × List Char × List Char × Nat :=
  let index := st.2.2.2 + 1
  let initial_config := st.1 ++ [if pyTruthy e.2 then '1' else '0']
  let name := pyTitleName e.1
  let getters_h := st.2.1 ++ pyReplace PAT_NAME name GETTER_H_T
  let getters_cc := st.2.2.1 ++
    pyReplace PAT_INDEX (pyStr index) (pyReplace PAT_NAME name GETTER_CC_T)
  (initial_config, getters_h, getters_cc, index)

/-- The fuse entries: the configuration with the `_version` and
`_comment` metadata keys removed (lines 52-53, 58). -/
def fusesOf (cfg : Config) : Config :=
  dictDel (dictDel cfg "_version") "_comment"

/-- How a run of the script can abort: an uncaught Python exception. -/
inductive PyError where
  | keyError (k : String)
  | typeError
  | valueError
  | exception (msg : String)
  | ioError
deriving DecidableEq

/-- The two rendered files. -/
structure Output where
  header : List Char
  impl : List Char
deriving DecidableEq

/-- Lines 51-76 of the script: from the parsed configuration to the two
rendered strings, or the uncaught exception that aborts the run.
`valueError` models `chr()` on a negative version (line 76). -/
def build (cfg : Config) : Except PyError Output :=
  match dictGet cfg "_version" with
  | none => .error (.keyError "_version")
  | some verVal =>
    match dictGet (dictDel cfg "_version") "_comment" with
    | none => .error (.keyError "_comment")
    | some _ =>
      let fuse_defaults := fusesOf cfg
      match jToInt verVal with
      | none => .error .typeError
      | some fuse_version =>
        if 256 ≤ fuse_version then
          .error (.exception "Fuse version can not exceed one byte in size")
        else
          let st := fuse_defaults.foldl loopStep ([], [], [], SENTINEL.length)
          let header := pyReplace PAT_GET (pyStrip st.2.1) TEMPLATE_H
          if fuse_version < 0 then .error .valueError
          else
            let impl := pyReplace PAT_GET (pyStrip st.2.2.1)
              (pyReplace PAT_CONF st.1
                (pyReplace PAT_VER [Char.ofNat fuse_version.toNat]
                  (pyReplace PAT_SENT SENTINEL TEMPLATE_CC)))
            .ok ⟨header, impl⟩

/-- Lines 78-82: write the header to `argv[1]`, then the implementation to
`argv[2]`.  `ok1`/`ok2` say whether each write succeeds; the returned list
is what is on disk afterwards, and the option is the uncaught exception,
if any.  A failed first write leaves nothing; a failed second write leaves
the header already written. -/
def runScript (cfg : Config) (p1 p2 : String) (ok1 ok2 : Bool) :
    Option PyError × List (String × List Char) :=
  match build cfg with
  | .error e => (some e, [])
  | .ok out =>
    if ok1 then
      if ok2 then (none, [(p1, out.header), (p2, out.impl)])
      else (some .ioError, [(p1, out.header)])
    else (some .ioError, [])

-- ### Statement helpers (characterisations proved below)

/-- The bit-string: one character per fuse, `'1'` for a truthy default. -/
def bitsOf (fs : Config) : List Char :=
  fs.map (fun e => if pyTruthy e.2 then '1' else '0')

/-- The rendered declaration of one fuse accessor. -/
def renderGetterH (fuse : String) : List Char :=
  pyReplace PAT_NAME (pyTitleName fuse) GETTER_H_T

/-- The rendered definition of one fuse accessor at wire offset `index`. -/
def renderGetterCC (fuse : String) (index : Nat) : List Char :=
  pyReplace PAT_INDEX (pyStr index) (pyReplace PAT_NAME (pyTitleName fuse) GETTER_CC_T)

/-- The rendered declarations, in schema order. -/
def ghList (fs : Config) : List (List Char) :=
  fs.map (fun e => renderGetterH e.1)

/-- The rendered definitions, in schema order; the fuse at position `i`
receives index `idx + 1 + i`. -/
def gccList : Nat → Config → List (List Char)
  | _, [] => []
  | idx, e :: fs => renderGetterCC e.1 (idx + 1) :: gccList (idx + 1) fs

/-- Snake-case identifier characters: lower-case letters, digits,
underscore. -/
def snakeChar (c : Char) : Bool :=
  (97 ≤ c.toNat && c.toNat ≤ 122) || (48 ≤ c.toNat && c.toNat ≤ 57) || c == '_'

/-- A snake-case fuse identifier, the identifier form of the data model. -/
def snakeIdB (s : String) : Bool := s.data.all snakeChar

/-- A fuse default that is a JSON boolean, the value form of the data
model. -/
def isBoolVal : JVal → Bool
  | .bool _ => true
  | _ => false

-- ### Spec-side definition, for the reconstruction claim

/-- Modelled from the spec: the sentinel, version byte, and bit-string
must be "byte-for-byte reconstructible by an external tool" from the
emitted string literal.  `escChar` interprets a C escape sequence. -/
def escChar (e : Char) : Option Char :=
  if e == 'n' then some '\n'
  else if e == '\\' then some '\\'
  else if e == '\x22' then some '\x22'
  else none

/-- Fueled worker for `readLit`. -/
def readLitAux : Nat → List Char → Option (List Char)
  | 0, _ => none
  | fuel+1, s =>
    match s with
    | [] => none
    | c :: rest =>
      if c == '\x22' then some []
      else if c == '\n' then none
      else if c == '\\' then
        match rest with
        | [] => none
        | e :: rest2 =>
          match escChar e with
          | some d => (readLitAux fuel rest2).map (fun t => d :: t)
          | none => none
      else (readLitAux fuel rest).map (fun t => c :: t)

/-- Modelled from the spec: reading the body of a C string literal, as the
external tool reconstructing the wire bytes would: characters up to the
closing quote, with escape sequences interpreted and raw newlines
rejected.  Returns `none` for an unterminated or malformed literal. -/
def readLit (s : List Char) : Option (List Char) :=
  readLitAux s.length s

/-- The implementation text of a successful build (the empty string on a
failed build), used to state claims about the emitted definitions file. -/
def implOf (r : Except PyError Output) : List Char :=
  match r with
  | .ok out => out.impl
  | .error _ => []

/-- Whether a build succeeded. -/
def isOkB (r : Except PyError Output) : Bool :=
  match r with
  | .ok _ => true
  | .error _ => false

-- ### Fixed segments of the templates around the placeholders

/-- Segment of `TEMPLATE_H` up to the `"{getters}"` placeholder. -/
def H_P1 : List Char :=
  "\n#ifndef ELECTRON_FUSES_H_\n#define ELECTRON_FUSES_H_\n\nnamespace electron \x7b\n\nnamespace fuses \x7b\n\nextern const volatile char kFuseWire[];\n\n".data

/-- Segment of `TEMPLATE_H` after the `"{getters}"` placeholder. -/
def H_P3 : List Char :=
  "\n\n\x7d  // namespace fuses\n\n\x7d  // namespace electron\n\n#endif  // ELECTRON_FUSES_H_\n".data

/-- Segment of `TEMPLATE_CC` up to the `"{sentinel}"` placeholder: everything before
the opening quote of the `kFuseWire` literal, quote included. -/
def CC_P1 : List Char :=
  "\n#include \"electron/fuses.h\"\n\n#include <iostream>\n\nnamespace electron \x7b\n\nnamespace fuses \x7b\n\nconst volatile char kFuseWire[] = \"".data

/-- Segment of `TEMPLATE_CC` between the `"{initial_config}"` and `"{getters}"`
placeholders: the closing quote of the `kFuseWire` literal onwards. -/
def CC_P2 : List Char := "\";\n\n".data

/-- Segment of `TEMPLATE_CC` after the `"{getters}"` placeholder. -/
def CC_P3 : List Char := "\n\n\x7d\n\n\x7d\n".data

/-- The per-fuse definition template up to `"{name}"`. -/
def G_P1 : List Char :=
  "\n__attribute__((__visibility__(\"default\"))) bool Is".data

/-- The per-fuse definition template between `"{name}"` and `"{index}"`. -/
def G_P2 : List Char := "Enabled() \x7b\n  return kFuseWire[".data

/-- The per-fuse definition template after `"{index}"`. -/
def G_P3 : List Char := "] == \x271\x27;\n\x7d\n".data

/-- The per-fuse declaration template up to `"{name}"`. -/
def GH_P1 : List Char := "bool Is".data

/-- The per-fuse declaration template after `"{name}"`. -/
def GH_P2 : List Char := "Enabled();\n".data

-- ### Decidable absence-of-occurrence checks

/-- Check `blockSafeB pat X` holds when no occurrence of `pat` can begin inside
`X`, whatever text follows `X`: every window lying fully inside `X` fails
to match, and every proper final fragment of `X` differs from the
corresponding initial fragment of `pat`. -/
def blockSafeB (pat X : List Char) : Bool :=
  (List.range X.length).all fun i =>
    if pat.length ≤ (X.drop i).length then !startsWith pat (X.drop i)
    else !startsWith (X.drop i) pat

/-- Check `noOccB pat Y` holds when `pat` occurs nowhere in `Y`. -/
def noOccB (pat Y : List Char) : Bool :=
  (List.range (Y.length + 1)).all fun i => !startsWith pat (Y.drop i)

-- ### Lemmas about `startsWith`

theorem startsWith_append_self (p t : List Char) : startsWith p (p ++ t) = true := by
  induction p with
  | nil => rfl
  | cons a as ih => simp [startsWith, ih]

theorem startsWith_head {a : Char} {p s : List Char} {d : Char}
    (h : startsWith (a :: p) (d :: s) = true) : a = d ∧ startsWith p s = true := by
  simp only [startsWith, Bool.and_eq_true, beq_iff_eq] at h
  exact h

theorem startsWith_of_le {p : List Char} : ∀ {x : List Char} (T : List Char),
    startsWith p (x ++ T) = true → p.length ≤ x.length → startsWith p x = true := by
  induction p with
  | nil => intro x T _ _; rfl
  | cons a as ih =>
    intro x T h hl
    cases x with
    | nil => simp at hl
    | cons d x' =>
      obtain ⟨rfl, h2⟩ := startsWith_head h
      simp only [List.length_cons, Nat.add_le_add_iff_right] at hl
      simp [startsWith, ih T h2 hl]

theorem startsWith_short {p : List Char} : ∀ {x : List Char} (T : List Char),
    startsWith p (x ++ T) = true → x.length ≤ p.length → startsWith x p = true := by
  intro x
  induction x generalizing p with
  | nil => intro T _ _; rfl
  | cons d x' ih =>
    intro T h hl
    cases p with
    | nil => simp at hl
    | cons a p' =>
      obtain ⟨rfl, h2⟩ := startsWith_head h
      simp only [List.length_cons, Nat.add_le_add_iff_right] at hl
      simp [startsWith, ih T h2 hl]

theorem startsWith_append_of_le {p b : List Char} (c : List Char)
    (h : p.length ≤ b.length) : startsWith p (b ++ c) = startsWith p b := by
  induction p generalizing b with
  | nil => rfl
  | cons a as ih =>
    cases b with
    | nil => simp at h
    | cons d b' =>
      simp only [List.length_cons, Nat.add_le_add_iff_right] at h
      simp [startsWith, ih h]

-- ### Unfolding lemmas for `pyReplace`

theorem pyReplaceAux_fuel (pat rep : List Char) :
    ∀ (f1 : Nat) {f2 : Nat} {s : List Char}, s.length ≤ f1 → s.length ≤ f2 →
      pyReplaceAux pat rep f1 s = pyReplaceAux pat rep f2 s := by
  intro f1
  induction f1 with
  | zero =>
    intro f2 s h1 _
    have : s = [] := List.length_eq_zero.mp (Nat.le_zero.mp h1)
    subst this
    cases f2 <;> rfl
  | succ g1 ih =>
    intro f2 s h1 h2
    cases s with
    | nil => cases f2 <;> rfl
    | cons c rest =>
      cases f2 with
      | zero => simp at h2
      | succ g2 =>
        simp only [pyReplaceAux]
        by_cases hcond : (!pat.isEmpty && startsWith pat (c :: rest)) = true
        · rw [if_pos hcond, if_pos hcond]
          have hpat : 1 ≤ pat.length := by
            cases pat with
            | nil => simp at hcond
            | cons _ _ => simp
          have hd : (List.drop pat.length (c :: rest)).length ≤ rest.length := by
            simp only [List.length_drop, List.length_cons]
            omega
          have h1' : (List.drop pat.length (c :: rest)).length ≤ g1 := by
            simp only [List.length_cons] at h1; omega
          have h2' : (List.drop pat.length (c :: rest)).length ≤ g2 := by
            simp only [List.length_cons] at h2; omega
          rw [ih h1' h2']
        · rw [if_neg hcond, if_neg hcond]
          have h1' : rest.length ≤ g1 := by simp only [List.length_cons] at h1; omega
          have h2' : rest.length ≤ g2 := by simp only [List.length_cons] at h2; omega
          rw [ih h1' h2']

theorem pyReplace_cons_not {pat : List Char} (rep : List Char) {c : Char} {s : List Char}
    (h : (!pat.isEmpty && startsWith pat (c :: s)) = false) :
    pyReplace pat rep (c :: s) = c :: pyReplace pat rep s := by
  show pyReplaceAux pat rep (c :: s).length (c :: s) = _
  simp only [List.length_cons, pyReplaceAux, h, if_neg]
  rfl

theorem pyReplace_match {pat : List Char} (rep : List Char) (t : List Char)
    (hp : pat ≠ []) : pyReplace pat rep (pat ++ t) = rep ++ pyReplace pat rep t := by
  cases pat with
  | nil => exact absurd rfl hp
  | cons a p' =>
    show pyReplaceAux (a :: p') rep ((a :: p') ++ t).length ((a :: p') ++ t) = _
    have hsw : startsWith (a :: p') ((a :: p') ++ t) = true := startsWith_append_self _ _
    have hlen : ((a :: p') ++ t).length = (p' ++ t).length + 1 := by simp
    rw [hlen]
    show pyReplaceAux (a :: p') rep ((p' ++ t).length + 1) (a :: (p' ++ t)) = _
    have hcond : (!(a :: p').isEmpty && startsWith (a :: p') (a :: (p' ++ t))) = true := by
      simpa [List.isEmpty] using hsw
    simp only [pyReplaceAux, hcond, if_pos]
    congr 1
    have hdrop : List.drop (a :: p').length (a :: (p' ++ t)) = t := by
      show List.drop (p'.length + 1) (a :: (p' ++ t)) = t
      simp [List.drop_succ_cons, List.drop_left]
    rw [hdrop]
    exact pyReplaceAux_fuel (a :: p') rep _ (by simp) (Nat.le_refl _)

theorem pyReplace_append_left {pat : List Char} (rep : List Char) :
    ∀ (a t : List Char),
      (∀ x, x ≠ [] → x <:+ a → startsWith pat (x ++ t) = false) →
      pyReplace pat rep (a ++ t) = a ++ pyReplace pat rep t := by
  intro a
  induction a with
  | nil => intro t _; rfl
  | cons c a' ih =>
    intro t h
    have hc : startsWith pat ((c :: a') ++ t) = false :=
      h (c :: a') (by simp) (List.suffix_refl _)
    have : pyReplace pat rep (c :: (a' ++ t)) = c :: pyReplace pat rep (a' ++ t) := by
      apply pyReplace_cons_not
      have : (c :: a') ++ t = c :: (a' ++ t) := rfl
      rw [this] at hc
      simp [hc]
    rw [List.cons_append, this, ih t (fun x hx hsuf =>
      h x hx (hsuf.trans (List.suffix_cons c a')))]
    rfl

theorem pyReplace_no_occ {pat : List Char} (rep : List Char) :
    ∀ (t : List Char),
      (∀ x, x ≠ [] → x <:+ t → startsWith pat x = false) →
      pyReplace pat rep t = t := by
  intro t
  induction t with
  | nil => intro _; rfl
  | cons c t' ih =>
    intro h
    have hc : startsWith pat (c :: t') = false := h (c :: t') (by simp) (List.suffix_refl _)
    rw [pyReplace_cons_not rep (by simp [hc]),
      ih (fun x hx hsuf => h x hx (hsuf.trans (List.suffix_cons c t')))]

theorem pyReplace_decomp {pat : List Char} (rep X Y : List Char) (hp : pat ≠ [])
    (h1 : ∀ x, x ≠ [] → x <:+ X → startsWith pat (x ++ (pat ++ Y)) = false)
    (h2 : ∀ y, y ≠ [] → y <:+ Y → startsWith pat y = false) :
    pyReplace pat rep (X ++ pat ++ Y) = X ++ rep ++ Y := by
  rw [List.append_assoc, pyReplace_append_left rep X (pat ++ Y) h1,
    pyReplace_match rep Y hp, pyReplace_no_occ rep Y h2, List.append_assoc]

-- ### Discharging the no-occurrence side conditions

theorem noStart_of_blockSafe {pat X : List Char} (h : blockSafeB pat X = true) :
    ∀ (T x : List Char), x ≠ [] → x <:+ X → startsWith pat (x ++ T) = false := by
  intro T x hx hsuf
  obtain ⟨w, hw⟩ := hsuf
  have hdrop : X.drop w.length = x := by rw [← hw]; exact List.drop_left w x
  have hlt : w.length < X.length := by
    rw [← hw, List.length_append]
    cases x with
    | nil => exact absurd rfl hx
    | cons _ _ => simp
  have hall := List.all_eq_true.mp h w.length (List.mem_range.mpr hlt)
  simp only [hdrop] at hall
  by_contra hcon
  rw [Bool.not_eq_false] at hcon
  by_cases hle : pat.length ≤ x.length
  · rw [if_pos hle, Bool.not_eq_true'] at hall
    have := startsWith_of_le T hcon hle
    rw [hall] at this
    exact Bool.false_ne_true this
  · rw [if_neg hle, Bool.not_eq_true'] at hall
    have := startsWith_short T hcon (Nat.le_of_lt (Nat.lt_of_not_le hle))
    rw [hall] at this
    exact Bool.false_ne_true this

theorem noOcc_of_noOccB {pat Y : List Char} (h : noOccB pat Y = true) :
    ∀ y, y ≠ [] → y <:+ Y → startsWith pat y = false := by
  intro y _ hsuf
  obtain ⟨w, hw⟩ := hsuf
  have hdrop : Y.drop w.length = y := by rw [← hw]; exact List.drop_left w y
  have hlt : w.length < Y.length + 1 := by
    rw [← hw, List.length_append]
    omega
  have hall := List.all_eq_true.mp h w.length (List.mem_range.mpr hlt)
  simp only [hdrop, Bool.not_eq_true'] at hall
  exact hall

theorem suffix_append_cases {x A B : List Char} (h : x <:+ A ++ B) :
    x <:+ B ∨ ∃ a, a ≠ [] ∧ a <:+ A ∧ x = a ++ B := by
  obtain ⟨w, hw⟩ := h
  have hlen := congrArg List.length hw
  simp only [List.length_append] at hlen
  by_cases hle : x.length ≤ B.length
  · left
    have hx : x = (A ++ B).drop w.length := by rw [← hw]; exact (List.drop_left w x).symm
    have hwlen : w.length = A.length + (B.length - x.length) := by omega
    rw [hwlen, ← List.drop_drop] at hx
    rw [List.drop_left] at hx
    rw [hx]
    exact List.drop_suffix _ _
  · right
    have hk : 0 < x.length - B.length := by omega
    have hsplit : (w ++ x.take (x.length - B.length)) ++ x.drop (x.length - B.length)
        = A ++ B := by
      rw [List.append_assoc, List.take_append_drop]
      exact hw
    have hlen2 : (x.drop (x.length - B.length)).length = B.length := by
      simp only [List.length_drop]
      omega
    have hinj := List.append_inj' hsplit hlen2
    refine ⟨x.take (x.length - B.length), ?_, ⟨w, hinj.1⟩, ?_⟩
    · intro hnil
      have := congrArg List.length hnil
      simp only [List.length_take, List.length_nil] at this
      omega
    · conv_lhs => rw [← List.take_append_drop (x.length - B.length) x]
      rw [hinj.2]

theorem noStart_append {pat A B T : List Char}
    (hA : ∀ x, x ≠ [] → x <:+ A → startsWith pat (x ++ (B ++ T)) = false)
    (hB : ∀ x, x ≠ [] → x <:+ B → startsWith pat (x ++ T) = false) :
    ∀ x, x ≠ [] → x <:+ A ++ B → startsWith pat (x ++ T) = false := by
  intro x hx hsuf
  rcases suffix_append_cases hsuf with hsB | ⟨a, ha, hsA, rfl⟩
  · exact hB x hx hsB
  · rw [List.append_assoc]
    exact hA a ha hsA

theorem noStart_not_head {hc : Char} {pat' X T : List Char} (hX : hc ∉ X) :
    ∀ x, x ≠ [] → x <:+ X → startsWith (hc :: pat') (x ++ T) = false := by
  intro x hx hsuf
  cases x with
  | nil => exact absurd rfl hx
  | cons c x' =>
    have hcX : c ∈ X := hsuf.subset (List.mem_cons_self c x')
    by_contra hcon
    rw [Bool.not_eq_false] at hcon
    have : hc = c := (startsWith_head hcon).1
    exact hX (this ▸ hcX)

theorem noStart_single {pat : List Char} (hp : pat ≠ []) {T : List Char} (c : Char)
    (h : startsWith pat.tail T = false) :
    ∀ x, x ≠ [] → x <:+ [c] → startsWith pat (x ++ T) = false := by
  intro x hx hsuf
  obtain ⟨w, hw⟩ := hsuf
  cases w with
  | cons d w' =>
    have hlen := congrArg List.length hw
    simp only [List.length_append, List.length_cons, List.length_nil] at hlen
    cases x with
    | nil => exact absurd rfl hx
    | cons _ _ => simp only [List.length_cons] at hlen; omega
  | nil =>
    simp only [List.nil_append] at hw
    subst hw
    cases pat with
    | nil => exact absurd rfl hp
    | cons a p' =>
      have h' : startsWith p' T = false := by simpa using h
      simp [startsWith, h']

theorem startsWith_cons_false {a : Char} {p' s : List Char}
    (h : ∀ hd t, s = hd :: t → (a == hd) = false) : startsWith (a :: p') s = false := by
  cases s with
  | nil => rfl
  | cons hd t =>
    simp only [startsWith, h hd t rfl, Bool.false_and]

-- ### The templates split into fixed segments around the placeholders

theorem TEMPLATE_H_decomp : TEMPLATE_H = H_P1 ++ PAT_GET ++ H_P3 := by decide

theorem TEMPLATE_CC_decomp :
    TEMPLATE_CC = CC_P1 ++ PAT_SENT ++ (PAT_VER ++ PAT_CONF ++ CC_P2 ++ PAT_GET ++ CC_P3) := by
  decide

theorem GETTER_H_T_decomp : GETTER_H_T = GH_P1 ++ PAT_NAME ++ GH_P2 := by decide

theorem GETTER_CC_T_decomp :
    GETTER_CC_T = G_P1 ++ PAT_NAME ++ (G_P2 ++ PAT_INDEX ++ G_P3) := by decide

-- ### Rendering lemmas: each `replace` call substitutes its unique placeholder

theorem header_render (g : List Char) :
    pyReplace PAT_GET g TEMPLATE_H = H_P1 ++ g ++ H_P3 := by
  rw [TEMPLATE_H_decomp]
  exact pyReplace_decomp g H_P1 H_P3 (by decide)
    (fun x hx hs => noStart_of_blockSafe (by decide) _ x hx hs)
    (fun y hy hs => noOcc_of_noOccB (by decide) y hy hs)

theorem getterH_render (n : List Char) :
    pyReplace PAT_NAME n GETTER_H_T = GH_P1 ++ n ++ GH_P2 := by
  rw [GETTER_H_T_decomp]
  exact pyReplace_decomp n GH_P1 GH_P2 (by decide)
    (fun x hx hs => noStart_of_blockSafe (by decide) _ x hx hs)
    (fun y hy hs => noOcc_of_noOccB (by decide) y hy hs)

theorem getterCC_render (n idxs : List Char) (hn : '\x7b' ∉ n) :
    pyReplace PAT_INDEX idxs (pyReplace PAT_NAME n GETTER_CC_T)
      = G_P1 ++ n ++ G_P2 ++ idxs ++ G_P3 := by
  have hstep1 : pyReplace PAT_NAME n GETTER_CC_T
      = G_P1 ++ n ++ (G_P2 ++ PAT_INDEX ++ G_P3) := by
    rw [GETTER_CC_T_decomp]
    exact pyReplace_decomp n G_P1 (G_P2 ++ PAT_INDEX ++ G_P3) (by decide)
      (fun x hx hs => noStart_of_blockSafe (by decide) _ x hx hs)
      (fun y hy hs => noOcc_of_noOccB (by decide) y hy hs)
  rw [hstep1]
  have hgrp : G_P1 ++ n ++ (G_P2 ++ PAT_INDEX ++ G_P3)
      = (G_P1 ++ (n ++ G_P2)) ++ PAT_INDEX ++ G_P3 := by
    simp [List.append_assoc]
  rw [hgrp]
  have hmain : pyReplace PAT_INDEX idxs ((G_P1 ++ (n ++ G_P2)) ++ PAT_INDEX ++ G_P3)
      = (G_P1 ++ (n ++ G_P2)) ++ idxs ++ G_P3 := by
    refine pyReplace_decomp idxs _ G_P3 (by decide) ?_
      (fun y hy hs => noOcc_of_noOccB (by decide) y hy hs)
    refine noStart_append
      (fun x hx hs => noStart_of_blockSafe (by decide) _ x hx hs) ?_
    refine noStart_append ?_
      (fun x hx hs => noStart_of_blockSafe (by decide) _ x hx hs)
    intro x hx hs
    rw [show PAT_INDEX = '\x7b' :: "index\x7d".data from by decide]
    exact noStart_not_head hn x hx hs
  rw [hmain]
  simp [List.append_assoc]

theorem bitsOf_chars (fs : Config) : ∀ c ∈ bitsOf fs, c = '1' ∨ c = '0' := by
  intro c hc
  simp only [bitsOf, List.mem_map] at hc
  obtain ⟨e, _, he⟩ := hc
  by_cases h : pyTruthy e.2
  · left; rw [← he]; simp [h]
  · right; rw [← he]; simp [h]

theorem impl_render (v : Char) (bits g : List Char)
    (hbits : ∀ c ∈ bits, c = '1' ∨ c = '0') :
    pyReplace PAT_GET g (pyReplace PAT_CONF bits
      (pyReplace PAT_VER [v] (pyReplace PAT_SENT SENTINEL TEMPLATE_CC)))
    = CC_P1 ++ SENTINEL ++ [v] ++ bits ++ CC_P2 ++ g ++ CC_P3 := by
  have hnb : '\x7b' ∉ bits := by
    intro hmem
    rcases hbits _ hmem with h | h <;> exact absurd h (by decide)
  have h1 : pyReplace PAT_SENT SENTINEL TEMPLATE_CC
      = CC_P1 ++ SENTINEL ++ (PAT_VER ++ PAT_CONF ++ CC_P2 ++ PAT_GET ++ CC_P3) := by
    rw [TEMPLATE_CC_decomp]
    exact pyReplace_decomp SENTINEL CC_P1 _ (by decide)
      (fun x hx hs => noStart_of_blockSafe (by decide) _ x hx hs)
      (fun y hy hs => noOcc_of_noOccB (by decide) y hy hs)
  have h2 : pyReplace PAT_VER [v]
      (CC_P1 ++ SENTINEL ++ (PAT_VER ++ PAT_CONF ++ CC_P2 ++ PAT_GET ++ CC_P3))
      = (CC_P1 ++ SENTINEL) ++ [v] ++ (PAT_CONF ++ CC_P2 ++ PAT_GET ++ CC_P3) := by
    have harr : CC_P1 ++ SENTINEL ++ (PAT_VER ++ PAT_CONF ++ CC_P2 ++ PAT_GET ++ CC_P3)
        = (CC_P1 ++ SENTINEL) ++ PAT_VER ++ (PAT_CONF ++ CC_P2 ++ PAT_GET ++ CC_P3) := by
      simp [List.append_assoc]
    rw [harr]
    exact pyReplace_decomp [v] (CC_P1 ++ SENTINEL) _ (by decide)
      (fun x hx hs => noStart_of_blockSafe (by decide) _ x hx hs)
      (fun y hy hs => noOcc_of_noOccB (by decide) y hy hs)
  have h3 : pyReplace PAT_CONF bits
      ((CC_P1 ++ SENTINEL) ++ [v] ++ (PAT_CONF ++ CC_P2 ++ PAT_GET ++ CC_P3))
      = ((CC_P1 ++ SENTINEL) ++ [v]) ++ bits ++ (CC_P2 ++ PAT_GET ++ CC_P3) := by
    have harr : (CC_P1 ++ SENTINEL) ++ [v] ++ (PAT_CONF ++ CC_P2 ++ PAT_GET ++ CC_P3)
        = ((CC_P1 ++ SENTINEL) ++ [v]) ++ PAT_CONF ++ (CC_P2 ++ PAT_GET ++ CC_P3) := by
      simp [List.append_assoc]
    rw [harr]
    refine pyReplace_decomp bits _ _ (by decide) ?_
      (fun y hy hs => noOcc_of_noOccB (by decide) y hy hs)
    refine noStart_append (fun x hx hs => noStart_of_blockSafe (by decide) _ x hx hs) ?_
    have htail : startsWith PAT_CONF.tail (PAT_CONF ++ (CC_P2 ++ PAT_GET ++ CC_P3)) = false := by
      rw [startsWith_append_of_le _ (by decide)]
      decide
    exact noStart_single (by decide) v htail
  have h4 : pyReplace PAT_GET g
      (((CC_P1 ++ SENTINEL) ++ [v]) ++ bits ++ (CC_P2 ++ PAT_GET ++ CC_P3))
      = (((CC_P1 ++ SENTINEL) ++ [v]) ++ (bits ++ CC_P2)) ++ g ++ CC_P3 := by
    have harr : ((CC_P1 ++ SENTINEL) ++ [v]) ++ bits ++ (CC_P2 ++ PAT_GET ++ CC_P3)
        = (((CC_P1 ++ SENTINEL) ++ [v]) ++ (bits ++ CC_P2)) ++ PAT_GET ++ CC_P3 := by
      simp [List.append_assoc]
    rw [harr]
    refine pyReplace_decomp g _ _ (by decide) ?_
      (fun y hy hs => noOcc_of_noOccB (by decide) y hy hs)
    refine noStart_append ?_ ?_
    · refine noStart_append (fun x hx hs => noStart_of_blockSafe (by decide) _ x hx hs) ?_
      have htail : startsWith PAT_GET.tail ((bits ++ CC_P2) ++ (PAT_GET ++ CC_P3)) = false := by
        rw [show PAT_GET.tail = 'g' :: "etters\x7d".data from by decide]
        apply startsWith_cons_false
        intro hd t hEq
        cases bits with
        | nil =>
          rw [show CC_P2 = '\x22' :: ";\n\n".data from by decide] at hEq
          simp only [List.nil_append, List.cons_append] at hEq
          injection hEq with hh _
          rw [← hh]
          decide
        | cons b bs =>
          simp only [List.cons_append] at hEq
          injection hEq with hh _
          rcases hbits b (List.mem_cons_self b bs) with rfl | rfl
          · rw [← hh]; decide
          · rw [← hh]; decide
      exact noStart_single (by decide) v htail
    · refine noStart_append ?_ (fun x hx hs => noStart_of_blockSafe (by decide) _ x hx hs)
      intro x hx hs
      rw [show PAT_GET = '\x7b' :: "getters\x7d".data from by decide]
      exact noStart_not_head hnb x hx hs
  rw [h1, h2, h3, h4]
  simp [List.append_assoc]

-- ### Accessor names contain no brace, so the `"{index}"` pass is safe

theorem toNat_ofNat_of_lt {n : Nat} (h : n < 55296) : (Char.ofNat n).toNat = n := by
  unfold Char.ofNat
  rw [dif_pos (Or.inl h)]
  rfl

theorem toUpper_toNat_le {c : Char} (h : c.toNat ≤ 122) : c.toUpper.toNat ≤ 122 := by
  unfold Char.toUpper
  by_cases hc : Char.toNat c ≥ 97 ∧ Char.toNat c ≤ 122
  · rw [if_pos hc, toNat_ofNat_of_lt (by omega)]
    omega
  · rw [if_neg hc]
    exact h

theorem toLower_toNat_le {c : Char} (h : c.toNat ≤ 122) : c.toLower.toNat ≤ 122 := by
  unfold Char.toLower
  by_cases hc : Char.toNat c ≥ 65 ∧ Char.toNat c ≤ 90
  · rw [if_pos hc, toNat_ofNat_of_lt (by omega)]
    omega
  · rw [if_neg hc]
    exact h

theorem pyTitleGo_chars : ∀ (w : List Char) (b : Bool) (c : Char), c ∈ pyTitleGo w b →
    ∃ d ∈ w, c = d ∨ c = d.toUpper ∨ c = d.toLower := by
  intro w
  induction w with
  | nil => intro b c hc; simp [pyTitleGo] at hc
  | cons d w' ih =>
    intro b c hc
    simp only [pyTitleGo, List.mem_cons] at hc
    rcases hc with hc | hc
    · refine ⟨d, List.mem_cons_self d w', ?_⟩
      by_cases h1 : casedChar d = true
      · rw [if_pos h1] at hc
        by_cases hb : b = true
        · subst hb; rw [if_pos rfl] at hc; right; right; exact hc
        · rw [Bool.not_eq_true] at hb; subst hb; rw [if_neg (by simp)] at hc
          right; left; exact hc
      · rw [if_neg h1] at hc; left; exact hc
    · obtain ⟨e, he, h⟩ := ih (casedChar d) c hc
      exact ⟨e, List.mem_cons_of_mem _ he, h⟩

theorem splitU_chars : ∀ (s w : List Char), w ∈ splitU s → ∀ c ∈ w, c ∈ s := by
  intro s
  induction s with
  | nil =>
    intro w hw c hc
    simp only [splitU, List.mem_singleton] at hw
    subst hw
    simp at hc
  | cons a s' ih =>
    intro w hw c hc
    simp only [splitU] at hw
    by_cases ha : (a == '_') = true
    · rw [if_pos ha] at hw
      rcases List.mem_cons.mp hw with rfl | hw'
      · simp at hc
      · exact List.mem_cons_of_mem a (ih w hw' c hc)
    · rw [if_neg ha] at hw
      cases hsp : splitU s' with
      | nil =>
        rw [hsp] at hw
        simp only [List.mem_singleton] at hw
        subst hw
        simp only [List.mem_singleton] at hc
        subst hc
        exact List.mem_cons_self _ _
      | cons w0 ws =>
        rw [hsp] at hw
        rcases List.mem_cons.mp hw with rfl | hw'
        · rcases List.mem_cons.mp hc with rfl | hc'
          · exact List.mem_cons_self c s'
          · have hw0 : w0 ∈ splitU s' := by rw [hsp]; exact List.mem_cons_self w0 ws
            exact List.mem_cons_of_mem a (ih w0 hw0 c hc')
        · have hwm : w ∈ splitU s' := by rw [hsp]; exact List.mem_cons_of_mem w0 hw'
          exact List.mem_cons_of_mem a (ih w hwm c hc)

theorem pyTitleName_chars_le {f : String} (hf : snakeIdB f = true) :
    ∀ c ∈ pyTitleName f, c.toNat ≤ 122 := by
  intro c hc
  simp only [pyTitleName, List.mem_flatten] at hc
  obtain ⟨tw, htw, hctw⟩ := hc
  simp only [List.mem_map] at htw
  obtain ⟨w, hw, rfl⟩ := htw
  obtain ⟨d, hd, hcd⟩ := pyTitleGo_chars w false c hctw
  have hds : d ∈ f.data := splitU_chars f.data w hw d hd
  have hsnake : snakeChar d = true := List.all_eq_true.mp hf d hds
  have hd122 : d.toNat ≤ 122 := by
    simp only [snakeChar, Bool.or_eq_true, Bool.and_eq_true, decide_eq_true_eq,
      beq_iff_eq] at hsnake
    rcases hsnake with (⟨_, h⟩ | ⟨_, h⟩) | rfl
    · exact h
    · omega
    · decide
  rcases hcd with rfl | rfl | rfl
  · exact hd122
  · exact toUpper_toNat_le hd122
  · exact toLower_toNat_le hd122

theorem pyTitleName_no_brace {f : String} (hf : snakeIdB f = true) :
    '\x7b' ∉ pyTitleName f := by
  intro hmem
  exact absurd (pyTitleName_chars_le hf _ hmem) (by decide)

theorem renderGetterH_eq (f : String) :
    renderGetterH f = GH_P1 ++ pyTitleName f ++ GH_P2 :=
  getterH_render _

theorem renderGetterCC_eq (f : String) (idx : Nat) (hf : snakeIdB f = true) :
    renderGetterCC f idx = G_P1 ++ pyTitleName f ++ G_P2 ++ pyStr idx ++ G_P3 :=
  getterCC_render _ _ (pyTitleName_no_brace hf)

-- ### The accumulation loop, characterised

theorem foldl_loop : ∀ (fs : Config) (ic gh gcc : List Char) (idx : Nat),
    fs.foldl loopStep (ic, gh, gcc, idx)
      = (ic ++ bitsOf fs, gh ++ (ghList fs).flatten,
         gcc ++ (gccList idx fs).flatten, idx + fs.length) := by
  intro fs
  induction fs with
  | nil => intro ic gh gcc idx; simp [bitsOf, ghList, gccList]
  | cons e fs' ih =>
    intro ic gh gcc idx
    rw [List.foldl_cons]
    have hstep : loopStep (ic, gh, gcc, idx) e
        = (ic ++ [if pyTruthy e.2 then '1' else '0'],
           gh ++ renderGetterH e.1,
           gcc ++ renderGetterCC e.1 (idx + 1), idx + 1) := rfl
    rw [hstep, ih]
    have harith : idx + 1 + fs'.length = idx + (fs'.length + 1) := by omega
    simp [bitsOf, ghList, gccList, List.append_assoc, harith]

-- ### Per-index characterisation of the rendered accessor lists

theorem gccList_getElem : ∀ (fs : Config) (idx i : Nat) (hi : i < fs.length),
    (gccList idx fs)[i]? = some (renderGetterCC fs[i].1 (idx + 1 + i)) := by
  intro fs
  induction fs with
  | nil => intro idx i hi; simp at hi
  | cons e fs' ih =>
    intro idx i hi
    cases i with
    | zero => simp [gccList]
    | succ i' =>
      have hi' : i' < fs'.length := by
        simp only [List.length_cons] at hi
        omega
      simp only [gccList, List.getElem?_cons_succ, List.getElem_cons_succ]
      rw [ih (idx + 1) i' hi']
      rw [show idx + 1 + 1 + i' = idx + 1 + (i' + 1) from by omega]

theorem ghList_getElem (fs : Config) (i : Nat) (hi : i < fs.length) :
    (ghList fs)[i]? = some (renderGetterH fs[i].1) := by
  simp [ghList, List.getElem?_map, List.getElem?_eq_getElem hi]

theorem bitsOf_getElem (fs : Config) (i : Nat) (hi : i < fs.length) :
    (bitsOf fs)[i]? = some (if pyTruthy fs[i].2 then '1' else '0') := by
  simp [bitsOf, List.getElem?_map, List.getElem?_eq_getElem hi]

theorem bitsOf_length (fs : Config) : (bitsOf fs).length = fs.length := by
  simp [bitsOf]

-- ### The whole build, characterised

theorem build_renders (cfg : Config) (verVal cmtVal : JVal) (ver : Int)
    (hv : dictGet cfg "_version" = some verVal)
    (hcm : dictGet (dictDel cfg "_version") "_comment" = some cmtVal)
    (hj : jToInt verVal = some ver)
    (h0 : 0 ≤ ver) (h256 : ver < 256) :
    build cfg = .ok ⟨H_P1 ++ pyStrip ((ghList (fusesOf cfg)).flatten) ++ H_P3,
      CC_P1 ++ SENTINEL ++ [Char.ofNat ver.toNat] ++ bitsOf (fusesOf cfg) ++ CC_P2
        ++ pyStrip ((gccList SENTINEL.length (fusesOf cfg)).flatten) ++ CC_P3⟩ := by
  simp only [build, hv, hcm, hj]
  rw [if_neg (by omega), if_neg (by omega)]
  rw [foldl_loop]
  simp only [List.nil_append]
  rw [header_render, impl_render _ _ _ (bitsOf_chars _)]

-- ### Reading back the emitted string literal

theorem readLitAux_fuel : ∀ (f1 : Nat) {f2 : Nat} {s : List Char},
    s.length ≤ f1 → s.length ≤ f2 → readLitAux f1 s = readLitAux f2 s := by
  intro f1
  induction f1 with
  | zero =>
    intro f2 s h1 _
    have : s = [] := List.length_eq_zero.mp (Nat.le_zero.mp h1)
    subst this
    cases f2 <;> rfl
  | succ g1 ih =>
    intro f2 s h1 h2
    cases s with
    | nil => cases f2 <;> rfl
    | cons c rest =>
      cases f2 with
      | zero => simp at h2
      | succ g2 =>
        by_cases hq : (c == '\x22') = true
        · simp [readLitAux, hq]
        · by_cases hn : (c == '\n') = true
          · simp [readLitAux, hq, hn]
          · by_cases hb : (c == '\\') = true
            · cases rest with
              | nil => simp [readLitAux, hq, hn, hb]
              | cons e rest2 =>
                cases hesc : escChar e with
                | none => simp [readLitAux, hq, hn, hb, hesc]
                | some d =>
                  have h1' : rest2.length ≤ g1 := by
                    simp only [List.length_cons] at h1; omega
                  have h2' : rest2.length ≤ g2 := by
                    simp only [List.length_cons] at h2; omega
                  simp [readLitAux, hq, hn, hb, hesc, ih h1' h2']
            · have h1' : rest.length ≤ g1 := by
                simp only [List.length_cons] at h1; omega
              have h2' : rest.length ≤ g2 := by
                simp only [List.length_cons] at h2; omega
              simp [readLitAux, hq, hn, hb, ih h1' h2']

theorem readLit_cons_safe {c : Char} (t : List Char)
    (hq : c ≠ '\x22') (hn : c ≠ '\n') (hb : c ≠ '\\') :
    readLit (c :: t) = (readLit t).map (fun x => c :: x) := by
  show readLitAux (c :: t).length (c :: t) = _
  simp only [List.length_cons, readLitAux]
  rw [if_neg (by simp [hq]), if_neg (by simp [hn]), if_neg (by simp [hb])]
  rfl

theorem readLit_quote (t : List Char) : readLit ('\x22' :: t) = some [] := by
  show readLitAux _ _ = _
  simp [readLitAux]

theorem readLit_closes : ∀ (s rest : List Char),
    (∀ c ∈ s, c ≠ '\x22' ∧ c ≠ '\n' ∧ c ≠ '\\') →
    readLit (s ++ '\x22' :: rest) = some s := by
  intro s
  induction s with
  | nil => intro rest _; exact readLit_quote rest
  | cons c s' ih =>
    intro rest h
    obtain ⟨hq, hn, hb⟩ := h c (List.mem_cons_self _ _)
    rw [List.cons_append, readLit_cons_safe _ hq hn hb,
      ih rest (fun d hd => h d (List.mem_cons_of_mem _ hd))]
    rfl

-- ### Deleting one dict key does not affect lookups of another

theorem dictGet_dictDel_ne (cfg : Config) {k k' : String} (h : k ≠ k') :
    dictGet (dictDel cfg k') k = dictGet cfg k := by
  induction cfg with
  | nil => rfl
  | cons p rest ih =>
    simp only [dictGet, dictDel, List.filter_cons] at ih ⊢
    by_cases hp : p.1 = k'
    · rw [if_neg (by simp [hp])]
      rw [List.find?_cons]
      have hk : (p.1 == k) = false := by
        simp only [beq_eq_false_iff_ne, ne_eq, hp]
        exact Ne.symm h
      rw [hk]
      exact ih
    · rw [if_pos (by simp [hp])]
      rw [List.find?_cons, List.find?_cons]
      cases hk : (p.1 == k) with
      | true => rfl
      | false => exact ih

-- ### The claims

/-- C1: for every valid schema (version < 256), the wire string in the
definitions file is exactly the concatenation
`SENTINEL ++ chr(version) ++ bitstring`, where the bit-string has exactly
one character per fuse in schema (insertion) order, that character being
`'1'` when the fuse default is `true` and `'0'` when it is `false`. -/
theorem claim1_wire_exact (cfg : Config) (verVal cmtVal : JVal) (ver : Int)
    (hnd : (cfg.map Prod.fst).Nodup)
    (hv : dictGet cfg "_version" = some verVal)
    (hcm : dictGet (dictDel cfg "_version") "_comment" = some cmtVal)
    (hj : jToInt verVal = some ver)
    (h0 : 0 ≤ ver) (h256 : ver < 256)
    (hbool : ∀ p ∈ fusesOf cfg, isBoolVal p.2 = true) :
    ∃ out, build cfg = .ok out ∧
      out.impl = CC_P1 ++ (SENTINEL ++ [Char.ofNat ver.toNat] ++ bitsOf (fusesOf cfg))
        ++ CC_P2 ++ pyStrip ((gccList SENTINEL.length (fusesOf cfg)).flatten) ++ CC_P3 ∧
      (bitsOf (fusesOf cfg)).length = (fusesOf cfg).length ∧
      ∀ i, (hi : i < (fusesOf cfg).length) →
        (bitsOf (fusesOf cfg))[i]? =
          some (if (fusesOf cfg)[i].2 = JVal.bool true then '1' else '0') := by
  refine ⟨_, build_renders cfg verVal cmtVal ver hv hcm hj h0 h256, ?_,
    bitsOf_length _, ?_⟩
  · simp [List.append_assoc]
  · intro i hi
    rw [bitsOf_getElem _ _ hi]
    have hb := hbool _ (List.getElem_mem hi)
    cases hfi : (fusesOf cfg)[i].2 with
    | num n => rw [hfi] at hb; exact absurd hb (by simp [isBoolVal])
    | str s => rw [hfi] at hb; exact absurd hb (by simp [isBoolVal])
    | null => rw [hfi] at hb; exact absurd hb (by simp [isBoolVal])
    | bool b => cases b <;> decide

/-- C1 witness: the example schema from the spec, version 3 with fuses
`enable_widget = true` and `enable_gadget = false`. -/
def cfgC1 : Config :=
  [("_version", JVal.num 3), ("_comment", JVal.str "x"),
   ("enable_widget", JVal.bool true), ("enable_gadget", JVal.bool false)]

theorem claim1_wire_exact_witness :
    (0 : Int) ≤ 3 ∧ (3 : Int) < 256 ∧
    (∃ out, build cfgC1 = .ok out ∧
      out.impl = CC_P1 ++ (SENTINEL ++ [Char.ofNat (3 : Int).toNat] ++ bitsOf (fusesOf cfgC1))
        ++ CC_P2 ++ pyStrip ((gccList SENTINEL.length (fusesOf cfgC1)).flatten) ++ CC_P3 ∧
      (bitsOf (fusesOf cfgC1)).length = (fusesOf cfgC1).length ∧
      ∀ i, (hi : i < (fusesOf cfgC1).length) →
        (bitsOf (fusesOf cfgC1))[i]? =
          some (if (fusesOf cfgC1)[i].2 = JVal.bool true then '1' else '0')) :=
  ⟨by decide, by decide,
    claim1_wire_exact cfgC1 (JVal.num 3) (JVal.str "x") 3 (by decide) (by decide)
      (by decide) (by decide) (by decide) (by decide) (by decide)⟩

/-- C2: for every fuse at 0-indexed position `i` in schema order, the
generated accessor definition reads the wire array at offset
`SENTINEL.length + 1 + i` (the segment `G_P2` is
`"Enabled() {\n  return kFuseWire["` and `G_P3` is `"] == '1';\n}\n"`, so
the accessor returns whether that character equals `'1'`). -/
theorem claim2_accessor_offsets (cfg : Config) (verVal cmtVal : JVal) (ver : Int)
    (hnd : (cfg.map Prod.fst).Nodup)
    (hv : dictGet cfg "_version" = some verVal)
    (hcm : dictGet (dictDel cfg "_version") "_comment" = some cmtVal)
    (hj : jToInt verVal = some ver)
    (h0 : 0 ≤ ver) (h256 : ver < 256)
    (hsnake : ∀ p ∈ fusesOf cfg, snakeIdB p.1 = true) :
    ∃ out, build cfg = .ok out ∧
      out.impl = CC_P1 ++ SENTINEL ++ [Char.ofNat ver.toNat] ++ bitsOf (fusesOf cfg)
        ++ CC_P2 ++ pyStrip ((gccList SENTINEL.length (fusesOf cfg)).flatten) ++ CC_P3 ∧
      ∀ i, (hi : i < (fusesOf cfg).length) →
        (gccList SENTINEL.length (fusesOf cfg))[i]? =
          some (G_P1 ++ pyTitleName (fusesOf cfg)[i].1 ++ G_P2
            ++ pyStr (SENTINEL.length + 1 + i) ++ G_P3) := by
  refine ⟨_, build_renders cfg verVal cmtVal ver hv hcm hj h0 h256, rfl, ?_⟩
  intro i hi
  rw [gccList_getElem _ _ _ hi,
    renderGetterCC_eq _ _ (hsnake _ (List.getElem_mem hi))]

/-- C2 witness: the example schema from the spec. -/
def cfgC2 : Config :=
  [("_version", JVal.num 3), ("_comment", JVal.str "x"),
   ("enable_widget", JVal.bool true), ("enable_gadget", JVal.bool false)]

theorem claim2_accessor_offsets_witness :
    (∀ p ∈ fusesOf cfgC2, snakeIdB p.1 = true) ∧
    (∃ out, build cfgC2 = .ok out ∧
      out.impl = CC_P1 ++ SENTINEL ++ [Char.ofNat (3 : Int).toNat] ++ bitsOf (fusesOf cfgC2)
        ++ CC_P2 ++ pyStrip ((gccList SENTINEL.length (fusesOf cfgC2)).flatten) ++ CC_P3 ∧
      ∀ i, (hi : i < (fusesOf cfgC2).length) →
        (gccList SENTINEL.length (fusesOf cfgC2))[i]? =
          some (G_P1 ++ pyTitleName (fusesOf cfgC2)[i].1 ++ G_P2
            ++ pyStr (SENTINEL.length + 1 + i) ++ G_P3)) :=
  ⟨by decide,
    claim2_accessor_offsets cfgC2 (JVal.num 3) (JVal.str "x") 3 (by decide) (by decide)
      (by decide) (by decide) (by decide) (by decide) (by decide)⟩

/-- C3: for every schema whose version is at least 256, the run aborts
with the uncaught exception raised at line 56 (reported to the invoker,
hence a non-zero exit) and writes no output files. -/
theorem claim3_overflow_aborts (cfg : Config) (p1 p2 : String) (ok1 ok2 : Bool)
    (verVal : JVal) (ver : Int)
    (hv : dictGet cfg "_version" = some verVal)
    (hcm : (dictGet (dictDel cfg "_version") "_comment").isSome = true)
    (hj : jToInt verVal = some ver) (h : 256 ≤ ver) :
    runScript cfg p1 p2 ok1 ok2
      = (some (.exception "Fuse version can not exceed one byte in size"), []) := by
  obtain ⟨cmtVal, hcm'⟩ := Option.isSome_iff_exists.mp hcm
  simp [runScript, build, hv, hcm', hj, h]

/-- C3 witness: version 256 with no fuses. -/
def cfgC3 : Config := [("_version", JVal.num 256), ("_comment", JVal.str "x")]

theorem claim3_overflow_aborts_witness :
    (256 : Int) ≤ 256 ∧
    runScript cfgC3 "decls.h" "impl.cc" true true
      = (some (.exception "Fuse version can not exceed one byte in size"), []) :=
  ⟨by decide,
    claim3_overflow_aborts cfgC3 "decls.h" "impl.cc" true true (JVal.num 256) 256
      (by decide) (by decide) (by decide) (by decide)⟩

/-- C4 counterexample: the sentinel constant does not have 33 characters. -/
theorem claim4_counterexample : ¬ SENTINEL.length = 33 := by decide

/-- C4 (amended): the sentinel constant embedded at the start of the wire
is a fixed 32-character string. -/
theorem claim4_sentinel_length : SENTINEL.length = 32 := by decide

/-- C5 counterexample: version 34 is `chr(34) = '"'`; the build succeeds,
but the emitted literal body (the implementation text just after the
opening quote written by `CC_P1`) does not read back as the wire bytes:
the raw, unescaped quote terminates the literal early. -/
def cfgC5 : Config :=
  [("_version", JVal.num 34), ("_comment", JVal.str "x"), ("a", JVal.bool true)]

theorem claim5_counterexample :
    isOkB (build cfgC5) = true ∧
    readLit ((implOf (build cfgC5)).drop CC_P1.length)
      ≠ some (SENTINEL ++ [Char.ofNat 34] ++ ['1']) := by
  decide

/-- C5 (amended): the script performs no string escaping; the sentinel,
version byte, and bit-string are emitted raw and contiguous, so they are
byte-for-byte reconstructible from the literal exactly when `chr(version)`
is not a double quote, newline, or backslash; for version 34 (the double
quote) reconstruction fails. -/
theorem claim5_raw_wire_readback (cfg : Config) (verVal cmtVal : JVal) (ver : Int)
    (hnd : (cfg.map Prod.fst).Nodup)
    (hv : dictGet cfg "_version" = some verVal)
    (hcm : dictGet (dictDel cfg "_version") "_comment" = some cmtVal)
    (hj : jToInt verVal = some ver)
    (h0 : 0 ≤ ver) (h256 : ver < 256)
    (hch : Char.ofNat ver.toNat ≠ '\x22' ∧ Char.ofNat ver.toNat ≠ '\n'
      ∧ Char.ofNat ver.toNat ≠ '\\') :
    readLit ((implOf (build cfg)).drop CC_P1.length)
      = some (SENTINEL ++ [Char.ofNat ver.toNat] ++ bitsOf (fusesOf cfg)) := by
  rw [build_renders cfg verVal cmtVal ver hv hcm hj h0 h256]
  show readLit ((CC_P1 ++ SENTINEL ++ [Char.ofNat ver.toNat] ++ bitsOf (fusesOf cfg)
    ++ CC_P2 ++ pyStrip ((gccList SENTINEL.length (fusesOf cfg)).flatten)
    ++ CC_P3).drop CC_P1.length) = _
  have harr : CC_P1 ++ SENTINEL ++ [Char.ofNat ver.toNat] ++ bitsOf (fusesOf cfg)
      ++ CC_P2 ++ pyStrip ((gccList SENTINEL.length (fusesOf cfg)).flatten) ++ CC_P3
      = CC_P1 ++ ((SENTINEL ++ [Char.ofNat ver.toNat] ++ bitsOf (fusesOf cfg))
        ++ '\x22' :: (";\n\n".data
          ++ (pyStrip ((gccList SENTINEL.length (fusesOf cfg)).flatten) ++ CC_P3))) := by
    rw [show CC_P2 = '\x22' :: ";\n\n".data from by decide]
    simp [List.append_assoc]
  rw [harr, List.drop_left]
  apply readLit_closes
  intro c hc
  rcases List.mem_append.mp hc with hc | hc
  · rcases List.mem_append.mp hc with hc | hc
    · exact (by decide : ∀ d ∈ SENTINEL, d ≠ '\x22' ∧ d ≠ '\n' ∧ d ≠ '\\') c hc
    · simp only [List.mem_singleton] at hc
      subst hc
      exact hch
  · rcases bitsOf_chars _ c hc with rfl | rfl <;> exact ⟨by decide, by decide, by decide⟩

/-- C5 witness for the amended claim: version 1, one fuse. -/
def cfgC5w : Config :=
  [("_version", JVal.num 1), ("_comment", JVal.str "c"), ("run_as_node", JVal.bool true)]

theorem claim5_raw_wire_readback_witness :
    (Char.ofNat (1 : Int).toNat ≠ '\x22' ∧ Char.ofNat (1 : Int).toNat ≠ '\n'
      ∧ Char.ofNat (1 : Int).toNat ≠ '\\') ∧
    readLit ((implOf (build cfgC5w)).drop CC_P1.length)
      = some (SENTINEL ++ [Char.ofNat (1 : Int).toNat] ++ bitsOf (fusesOf cfgC5w)) :=
  ⟨by decide,
    claim5_raw_wire_readback cfgC5w (JVal.num 1) (JVal.str "c") 1 (by decide) (by decide)
      (by decide) (by decide) (by decide) (by decide) (by decide)⟩

/-- C6: for every fuse identifier, the generated accessor name is formed
by title-casing each underscore-separated word of the identifier and
wrapping it as `Is<Name>Enabled` (the segments `GH_P1`/`G_P1` end in
`"Is"` and `GH_P2`/`G_P2` begin with `"Enabled"`); e.g. `foo_bar_baz`
yields `IsFooBarBazEnabled`, and both the declarations and the definitions
files contain one such accessor per fuse in schema order. -/
theorem claim6_accessor_names (cfg : Config) (verVal cmtVal : JVal) (ver : Int)
    (hnd : (cfg.map Prod.fst).Nodup)
    (hv : dictGet cfg "_version" = some verVal)
    (hcm : dictGet (dictDel cfg "_version") "_comment" = some cmtVal)
    (hj : jToInt verVal = some ver)
    (h0 : 0 ≤ ver) (h256 : ver < 256)
    (hsnake : ∀ p ∈ fusesOf cfg, snakeIdB p.1 = true) :
    ∃ out, build cfg = .ok out ∧
      out.header = H_P1 ++ pyStrip ((ghList (fusesOf cfg)).flatten) ++ H_P3 ∧
      out.impl = CC_P1 ++ SENTINEL ++ [Char.ofNat ver.toNat] ++ bitsOf (fusesOf cfg)
        ++ CC_P2 ++ pyStrip ((gccList SENTINEL.length (fusesOf cfg)).flatten) ++ CC_P3 ∧
      (∀ i, (hi : i < (fusesOf cfg).length) →
        (ghList (fusesOf cfg))[i]? =
          some (GH_P1 ++ pyTitleName (fusesOf cfg)[i].1 ++ GH_P2) ∧
        (gccList SENTINEL.length (fusesOf cfg))[i]? =
          some (G_P1 ++ pyTitleName (fusesOf cfg)[i].1 ++ G_P2
            ++ pyStr (SENTINEL.length + 1 + i) ++ G_P3)) ∧
      "Is".data ++ pyTitleName "foo_bar_baz" ++ "Enabled".data
        = "IsFooBarBazEnabled".data := by
  refine ⟨_, build_renders cfg verVal cmtVal ver hv hcm hj h0 h256, rfl, rfl, ?_,
    by decide⟩
  intro i hi
  constructor
  · rw [ghList_getElem _ _ hi, renderGetterH_eq]
  · rw [gccList_getElem _ _ _ hi,
      renderGetterCC_eq _ _ (hsnake _ (List.getElem_mem hi))]

/-- C6 witness: two snake-case fuses. -/
def cfgC6 : Config :=
  [("_version", JVal.num 0), ("_comment", JVal.str ""),
   ("run_as_node", JVal.bool true), ("cookie_encryption", JVal.bool false)]

theorem claim6_accessor_names_witness :
    (∀ p ∈ fusesOf cfgC6, snakeIdB p.1 = true) ∧
    (∃ out, build cfgC6 = .ok out ∧
      out.header = H_P1 ++ pyStrip ((ghList (fusesOf cfgC6)).flatten) ++ H_P3 ∧
      out.impl = CC_P1 ++ SENTINEL ++ [Char.ofNat (0 : Int).toNat] ++ bitsOf (fusesOf cfgC6)
        ++ CC_P2 ++ pyStrip ((gccList SENTINEL.length (fusesOf cfgC6)).flatten) ++ CC_P3 ∧
      (∀ i, (hi : i < (fusesOf cfgC6).length) →
        (ghList (fusesOf cfgC6))[i]? =
          some (GH_P1 ++ pyTitleName (fusesOf cfgC6)[i].1 ++ GH_P2) ∧
        (gccList SENTINEL.length (fusesOf cfgC6))[i]? =
          some (G_P1 ++ pyTitleName (fusesOf cfgC6)[i].1 ++ G_P2
            ++ pyStr (SENTINEL.length + 1 + i) ++ G_P3)) ∧
      "Is".data ++ pyTitleName "foo_bar_baz" ++ "Enabled".data
        = "IsFooBarBazEnabled".data) :=
  ⟨by decide,
    claim6_accessor_names cfgC6 (JVal.num 0) (JVal.str "") 0 (by decide) (by decide)
      (by decide) (by decide) (by decide) (by decide) (by decide)⟩

/-- C7: the generated file contents are a deterministic function of the
parsed configuration alone: two runs over the same configuration write
identical bytes and finish with the same outcome, whatever the output
paths are. -/
theorem claim7_deterministic (cfg : Config) (p1 p2 q1 q2 : String) (ok1 ok2 : Bool) :
    ((runScript cfg p1 p2 ok1 ok2).2).map Prod.snd
      = ((runScript cfg q1 q2 ok1 ok2).2).map Prod.snd ∧
    (runScript cfg p1 p2 ok1 ok2).1 = (runScript cfg q1 q2 ok1 ok2).1 := by
  cases hb : build cfg with
  | error e => simp [runScript, hb]
  | ok out => cases ok1 <;> cases ok2 <;> simp [runScript, hb]

/-- C8: for a schema with no fuses (only the metadata keys), generation
succeeds: the bit-string is empty, the wire is exactly
`SENTINEL ++ chr(version)`, zero accessors are emitted, and both output
files are still produced. -/
theorem claim8_empty_schema (cfg : Config) (verVal cmtVal : JVal) (ver : Int)
    (p1 p2 : String)
    (hnd : (cfg.map Prod.fst).Nodup)
    (hv : dictGet cfg "_version" = some verVal)
    (hcm : dictGet (dictDel cfg "_version") "_comment" = some cmtVal)
    (hj : jToInt verVal = some ver)
    (h0 : 0 ≤ ver) (h256 : ver < 256)
    (hempty : fusesOf cfg = []) :
    build cfg = .ok ⟨H_P1 ++ H_P3,
      CC_P1 ++ SENTINEL ++ [Char.ofNat ver.toNat] ++ CC_P2 ++ CC_P3⟩ ∧
    bitsOf (fusesOf cfg) = [] ∧ ghList (fusesOf cfg) = [] ∧
    runScript cfg p1 p2 true true = (none,
      [(p1, H_P1 ++ H_P3),
       (p2, CC_P1 ++ SENTINEL ++ [Char.ofNat ver.toNat] ++ CC_P2 ++ CC_P3)]) := by
  have hb := build_renders cfg verVal cmtVal ver hv hcm hj h0 h256
  rw [hempty] at hb
  simp only [ghList, gccList, bitsOf, List.map_nil, List.flatten_nil] at hb
  have hstrip : pyStrip [] = [] := rfl
  rw [hstrip] at hb
  simp only [List.append_nil] at hb
  refine ⟨hb, by rw [hempty]; rfl, by rw [hempty]; rfl, ?_⟩
  simp [runScript, hb]

/-- C8 witness: a schema with only the metadata keys. -/
def cfgC8 : Config := [("_version", JVal.num 5), ("_comment", JVal.str "no fuses")]

theorem claim8_empty_schema_witness :
    fusesOf cfgC8 = [] ∧
    (build cfgC8 = .ok ⟨H_P1 ++ H_P3,
        CC_P1 ++ SENTINEL ++ [Char.ofNat (5 : Int).toNat] ++ CC_P2 ++ CC_P3⟩ ∧
      bitsOf (fusesOf cfgC8) = [] ∧ ghList (fusesOf cfgC8) = [] ∧
      runScript cfgC8 "decls.h" "impl.cc" true true = (none,
        [("decls.h", H_P1 ++ H_P3),
         ("impl.cc", CC_P1 ++ SENTINEL ++ [Char.ofNat (5 : Int).toNat]
           ++ CC_P2 ++ CC_P3)])) :=
  ⟨by decide,
    claim8_empty_schema cfgC8 (JVal.num 5) (JVal.str "no fuses") 5 "decls.h" "impl.cc"
      (by decide) (by decide) (by decide) (by decide) (by decide) (by decide) (by decide)⟩

/-- C9 counterexample: with the example schema from the spec, a run whose second
(definitions) write fails leaves exactly one file on disk, contradicting
the claimed both-or-neither guarantee. -/
def cfgC9 : Config :=
  [("_version", JVal.num 3), ("_comment", JVal.str "x"),
   ("enable_widget", JVal.bool true), ("enable_gadget", JVal.bool false)]

theorem claim9_counterexample :
    (runScript cfgC9 "decls.h" "impl.cc" true false).2.length = 1 := by
  decide

/-- C9 (amended): the script writes the declarations file first and the
definitions file second, with no atomicity: if the first write fails,
nothing is on disk; if the first succeeds, the declarations file is on
disk whether or not the second write then fails, so a failed second write
leaves exactly the declarations file. -/
theorem claim9_partial_write (cfg : Config) (p1 p2 : String) (out : Output)
    (h : build cfg = .ok out) (ok2 : Bool) :
    (runScript cfg p1 p2 true ok2).2
      = (p1, out.header) :: (if ok2 then [(p2, out.impl)] else []) ∧
    (runScript cfg p1 p2 false ok2).2 = [] := by
  cases ok2 <;> simp [runScript, h]

/-- C9 witness for the amended claim: empty schema, second write fails. -/
def cfgC9w : Config := [("_version", JVal.num 3), ("_comment", JVal.str "x")]

theorem claim9_partial_write_witness :
    (runScript cfgC9w "decls.h" "impl.cc" true false).2 = [("decls.h", H_P1 ++ H_P3)] ∧
    (runScript cfgC9w "decls.h" "impl.cc" false false).2 = [] := by
  have h := claim9_partial_write cfgC9w "decls.h" "impl.cc"
    ⟨H_P1 ++ H_P3, CC_P1 ++ SENTINEL ++ [Char.ofNat (3 : Int).toNat] ++ CC_P2 ++ CC_P3⟩
    (by rfl) false
  simpa using h

/-- C10: a configuration lacking the `_comment` key (or the `_version`
key) aborts with an uncaught KeyError before any validation or output:
the error names a metadata key and no file is written, whatever the
version value is. -/
theorem claim10_missing_metadata_key (cfg : Config) (p1 p2 : String) (ok1 ok2 : Bool)
    (h : dictGet cfg "_comment" = none ∨ dictGet cfg "_version" = none) :
    ∃ k, runScript cfg p1 p2 ok1 ok2 = (some (.keyError k), [])
      ∧ (k = "_version" ∨ k = "_comment") := by
  cases hv : dictGet cfg "_version" with
  | none =>
    refine ⟨"_version", ?_, Or.inl rfl⟩
    simp [runScript, build, hv]
  | some verVal =>
    have hcm : dictGet cfg "_comment" = none := by
      rcases h with h | h
      · exact h
      · rw [hv] at h; exact absurd h (by simp)
    have hcm' : dictGet (dictDel cfg "_version") "_comment" = none := by
      rw [dictGet_dictDel_ne cfg (by decide)]
      exact hcm
    refine ⟨"_comment", ?_, Or.inr rfl⟩
    simp [runScript, build, hv, hcm']

/-- C10 witness: a configuration with `_version` but no `_comment`. -/
def cfgC10 : Config := [("_version", JVal.num 3)]

theorem claim10_missing_metadata_key_witness :
    dictGet cfgC10 "_comment" = none ∧
    (∃ k, runScript cfgC10 "decls.h" "impl.cc" true true = (some (.keyError k), [])
      ∧ (k = "_version" ∨ k = "_comment")) :=
  ⟨by decide,
    claim10_missing_metadata_key cfgC10 "decls.h" "impl.cc" true true
      (Or.inl (by decide))⟩

end FusesBuild
